import Mathlib

/-!
Verification of the CCOS disk-image dumper (`dumper.c`).

The file shallowly embeds the traversal / extraction / locate / patch logic of
`dumper.c`.  The low-level binary codec (`ccos_image.c`) and the string helpers
(`string_utils.c`) are external collaborators of the core; they are represented
by an abstract `Image` record of decoding functions keyed by 16-bit block
identifiers (modelled as `Nat`), exactly as the core only ever consumes them
through the `ccos_*` entry points.  Host I/O that always succeeds in the
properties under study (fopen/fwrite of extracted files) is modelled as
succeeding; where a claim is about an I/O outcome (the short write of the
patched image) the outcome is an explicit parameter.

Traversal recursion in the C source is plain call-stack recursion with no
depth bound; the embedding makes the recursion depth explicit with a fuel
parameter, `none` standing for a walk that exceeds the fuel (divergence on a
cyclic image).  Machine integers: block identifiers, sizes and counters are
16/32-bit unsigned in the source but every arithmetic step performed on them
(loop counting, `current_size += write_size` bounded by `file_size`) stays far
below the wrap point, so they are embedded as `Nat`.
-/

/-- Verdict of a visitor callback: `traverse_callback_result_t` in the source
(`RESULT_OK = 1`, `RESULT_ERROR`, `RESULT_BREAK`). -/
inductive CbResult where
  | ok : CbResult
  | error : CbResult
  | brk : CbResult
deriving DecidableEq, Repr

/-- Outcome of `traverse_ccos_image`: the source returns `0` (ok) or `-1` (err). -/
inductive TravResult where
  | ok : TravResult
  | err : TravResult
deriving DecidableEq, Repr

/-- A visitor callback (`on_file_t` / `on_dir_t`): receives the block, the
parent directory path, the depth, and the user state (the `void* arg`),
returning a verdict and the updated state.  The `data` and `verbose` arguments
of the C callbacks carry no information in the embedding. -/
def Visitor (σ : Type) : Type := Nat → String → Nat → σ → CbResult × σ

/-- One visitor-callback invocation, recorded by the embedding whenever the
walker actually calls a (non-null) callback: which kind of entry, which block,
with which parent path and depth arguments. -/
structure Event where
  isDir : Bool
  blk : Nat
  dir : String
  lvl : Nat
deriving DecidableEq, Repr

/-- Abstract view of the image through the Block Codec (`ccos_image.h`), the
external collaborator of the core.  Each field is one `ccos_*` entry point the
dumper calls; `none` models the `-1`/`NULL` failure returns. -/
structure Image where
  /-- `ccos_get_dir_contents`: ordered child block list of a directory block. -/
  dirContents : Nat → Option (List Nat)
  /-- `ccos_is_dir`. -/
  isDir : Nat → Bool
  /-- `ccos_parse_file_name` applied to `ccos_get_file_name`: basename and type. -/
  parseName : Nat → Option (String × String)
  /-- `ccos_short_string_to_string` applied to `ccos_get_file_name`. -/
  shortName : Nat → Option String
  /-- `ccos_get_file_size`: the file's logical size in bytes. -/
  fileSize : Nat → Nat
  /-- `ccos_get_file_blocks`: the file's block chain. -/
  fileBlocks : Nat → Option (List Nat)
  /-- `ccos_get_block_data`: one data block's payload bytes (its capacity is
  the payload length). -/
  blockData : Nat → Option (List Nat)
  /-- `ccos_get_file_version`: (major, minor, patch). -/
  fileVersion : Nat → Nat × Nat × Nat
  /-- `ccos_get_creation_date`: (year, month, day). -/
  creationDate : Nat → Nat × Nat × Nat
  /-- `ccos_get_mod_date`. -/
  modDate : Nat → Nat × Nat × Nat
  /-- `ccos_get_exp_date`. -/
  expDate : Nat → Nat × Nat × Nat

def emptyStr : String := ""

def dirSep : String := "/"

/-- Modelled from the spec: `replace_char_in_place` of `string_utils.c` (not
under `src/`), which substitutes every occurrence of one character: "a decoded
name containing `/` is extracted to a host path with `/` replaced by `_`". -/
def replaceChar (s : String) (c r : Char) : String :=
  String.mk (s.data.map fun x => if x = c then r else x)

/-- The per-child loop body of `traverse_ccos_image` (the `for` loop over
`root_dir_files`), parametric in the recursive call `tr` used for
subdirectories.  Mirrors the source line by line: a directory child first has
its name parsed (failure returns `-1` for the whole level), then `on_dir` is
invoked if non-null (`RESULT_ERROR` → `-1`, `RESULT_BREAK` → `0`), then the
walker recurses into the child with `dirname/name` and `level+1` (failure
aborts), then the loop continues; a file child only gets `on_file` with the
same three-way branch. -/
def traverseChildren (img : Image) (onFile onDir : Option (Visitor σ))
    (tr : Nat → String → Nat → σ → Option (TravResult × σ × List Event)) :
    List Nat → String → Nat → σ → Option (TravResult × σ × List Event)
  | [], _, _, s => some (.ok, s, [])
  | c :: rest, dn, lv, s =>
    if img.isDir c then
      match img.parseName c with
      | none => some (.err, s, [])
      | some nm =>
        let subdir := dn ++ dirSep ++ nm.fst
        let afterDir : σ → List Event → Option (TravResult × σ × List Event) := fun s1 evs =>
          match tr c subdir (lv + 1) s1 with
          | none => none
          | some (.err, s2, t) => some (.err, s2, evs ++ t)
          | some (.ok, s2, t) =>
            match traverseChildren img onFile onDir tr rest dn lv s2 with
            | none => none
            | some (r, s3, t2) => some (r, s3, evs ++ t ++ t2)
        match onDir with
        | none => afterDir s []
        | some gf =>
          match gf c dn lv s with
          | (.ok, s1) => afterDir s1 [Event.mk true c dn lv]
          | (.error, s1) => some (.err, s1, [Event.mk true c dn lv])
          | (.brk, s1) => some (.ok, s1, [Event.mk true c dn lv])
    else
      match onFile with
      | none => traverseChildren img onFile onDir tr rest dn lv s
      | some ff =>
        match ff c dn lv s with
        | (.ok, s1) =>
          match traverseChildren img onFile onDir tr rest dn lv s1 with
          | none => none
          | some (r, s2, t) => some (r, s2, Event.mk false c dn lv :: t)
        | (.error, s1) => some (.err, s1, [Event.mk false c dn lv])
        | (.brk, s1) => some (.ok, s1, [Event.mk false c dn lv])

/-- `traverse_ccos_image`: decode the child list of `block` (failure → `-1`
with no callback invoked), then run the per-child loop.  `fuel` bounds the
call-stack depth, `none` standing for a walk deeper than the fuel; the third
component of the result is the sequence of callback invocations the walk
performed. -/
def traverse_ccos_image (img : Image) (onFile onDir : Option (Visitor σ)) :
    Nat → Nat → String → Nat → σ → Option (TravResult × σ × List Event)
  | 0, _, _, _, _ => none
  | fuel + 1, block, dn, lv, s =>
    match img.dirContents block with
    | none => some (.err, s, [])
    | some children =>
      traverseChildren img onFile onDir
        (fun b d v st => traverse_ccos_image img onFile onDir fuel b d v st) children dn lv s

/-- Specification-side enumeration, level part.  Following the spec's words
(§4.1, §8): for each child in decoded order, a directory contributes its
on-directory visit followed by the pre-order enumeration of its subtree, a
file contributes its on-file visit. -/
def preorderL (img : Image) (pe : Nat → String → Nat → Option (List Event)) :
    List Nat → String → Nat → Option (List Event)
  | [], _, _ => some []
  | c :: rest, dn, lv =>
    if img.isDir c then
      match img.parseName c with
      | none => none
      | some nm =>
        match pe c (dn ++ dirSep ++ nm.fst) (lv + 1) with
        | none => none
        | some sub =>
          match preorderL img pe rest dn lv with
          | none => none
          | some r => some (Event.mk true c dn lv :: (sub ++ r))
    else
      match preorderL img pe rest dn lv with
      | none => none
      | some r => some (Event.mk false c dn lv :: r)

/-- Specification-side pre-order enumeration of the directory entries reachable
from `block`, with the path and depth arguments each visit would receive.
`some l` asserts the image is decodable along the walk and the tree is no
deeper than `fuel`; this is the well-formedness assumption of the spec's
traversal properties. -/
def preorderEvents (img : Image) : Nat → Nat → String → Nat → Option (List Event)
  | 0, _, _, _ => none
  | fuel + 1, block, dn, lv =>
    match img.dirContents block with
    | none => none
    | some children =>
      preorderL img (fun b d v => preorderEvents img fuel b d v) children dn lv

/-- Total capacity of a block chain: the sum of the payload capacities the
codec reports for its blocks (`data_size` of `ccos_get_block_data`). -/
def chainCap (img : Image) (bs : List Nat) : Nat :=
  (bs.map fun b => ((img.blockData b).getD []).length).sum

/-- The block-copy loop of `dump_dir_tree_on_file` (lines 250-276): for each
chain block in order, fetch its payload (failure aborts the file), write
`write_size = MIN(file_size - current_size, data_size)` bytes of it, and
accumulate `current_size`.  Returns the bytes written and the list of chain
blocks whose data the loop fetched. -/
def dumpFileBlocks (img : Image) (fileSize : Nat) :
    List Nat → Nat → Option (List Nat × List Nat)
  | [], _ => some ([], [])
  | b :: rest, current =>
    match img.blockData b with
    | none => none
    | some pdata =>
      let writeSize := if fileSize - current < pdata.length then fileSize - current else pdata.length
      match dumpFileBlocks img fileSize rest (current + writeSize) with
      | none => none
      | some (w, r) => some (pdata.take writeSize ++ w, b :: r)

/-- Result of extracting one file: the host path opened, the bytes written to
it, and the chain blocks read. -/
structure DumpOut where
  path : String
  written : List Nat
  readBlocks : List Nat
deriving DecidableEq, Repr

/-- `dump_dir_tree_on_file` (the Extractor's on-file visitor), with the
host-file `fopen`/`fwrite` succeeding: decode the display name, substitute
`/` by `_`, open `dirname/name`, resolve the file's block chain and stream it
through the block-copy loop. -/
def dump_dir_tree_on_file (img : Image) (block : Nat) (dn : String) : Option DumpOut :=
  match img.shortName block with
  | none => none
  | some nm =>
    let abspath := dn ++ dirSep ++ replaceChar nm '/' '_'
    match img.fileBlocks block with
    | none => none
    | some bs =>
      match dumpFileBlocks img (img.fileSize block) bs 0 with
      | none => none
      | some wr => some ⟨abspath, wr.fst, wr.snd⟩

/-- The Locator's user state (`find_file_data_t`): the target name and the
inode found so far, `0` the initial sentinel. -/
structure FindData where
  targetName : String
  targetInode : Nat
deriving DecidableEq, Repr

/-- `find_file_on_file` (the Locator's on-file visitor): decode the name
(failure → `RESULT_ERROR`), substitute `/` by `_`, compare with the target;
on a match record the block and return `RESULT_BREAK`. -/
def find_file_on_file (img : Image) : Visitor FindData := fun block _dn _lv st =>
  match img.shortName block with
  | none => (.error, st)
  | some nm =>
    if st.targetName = replaceChar nm '/' '_' then (.brk, { st with targetInode := block })
    else (.ok, st)

/-- The two `-1` returns of `find_filename`: the walk itself failed, or the
walk completed with the sentinel `0` still in place. -/
inductive FindFail where
  | walkFail : FindFail
  | notFound : FindFail
deriving DecidableEq, Repr

/-- `find_filename`: walk the whole image from the superblock with
`find_file_on_file` as on-file visitor and no on-dir visitor, starting from
the sentinel state `{target_name = filename, target_inode = 0}`. -/
def find_filename (img : Image) (fuel superblock : Nat) (filename : String) :
    Option (Except FindFail Nat) :=
  match traverse_ccos_image img (some (find_file_on_file img)) none fuel superblock emptyStr 0
      ⟨filename, 0⟩ with
  | none => none
  | some (.err, _, _) => some (.error .walkFail)
  | some (.ok, st, _) =>
    if st.targetInode = 0 then some (.error .notFound) else some (.ok st.targetInode)

/-- `strrchr(s, c)` followed by `+ 1`: the suffix of `s` strictly after the
last occurrence of `c`, or `none` when `c` does not occur. -/
def strrchrSuffix (c : Char) : List Char → Option (List Char)
  | [] => none
  | x :: xs =>
    match strrchrSuffix c xs with
    | some r => some r
    | none => if x = c then some xs else none

/-- The name `replace_file` searches the image for (lines 406-415): the
explicit `target_name` when given, otherwise the basename of the host
replacement file's path computed with `strrchr(filename, '/')`. -/
def replaceSearchName (filename : String) (targetName : Option String) : String :=
  match targetName with
  | some n => n
  | none =>
    match strrchrSuffix '/' filename.data with
    | none => filename
    | some suffix => String.mk suffix

/-- The substring of `s` after the last `/`, or the whole of `s` when it has
no `/`: the longest suffix free of `/`.  This is the wording of the basename
claim, stated independently of the `strrchr` pointer arithmetic. -/
def specBasename (s : String) : String :=
  String.mk ((s.data.reverse.takeWhile fun x => x ≠ '/').reverse)

/-- Modelled from the spec: `ccos_replace_file` of `ccos_image.c` (not under
`src/`), the Block Codec's `replace_file_content`: it "enforces that new
content fits within the file's existing block-chain capacity" and fails with
`CapacityExceeded` otherwise; on success it overwrites the file's stored bytes
inside the existing chain, leaving the buffer length unchanged.  Which buffer
positions hold the chain is codec-internal, so the mutated buffer is
represented by the codec's result itself. -/
def specReplaceContent (img : Image) (bytes : List Nat) (inode : Nat) (content : List Nat) :
    Option (List Nat) :=
  match img.fileBlocks inode with
  | none => none
  | some bs => if content.length ≤ chainCap img bs then some bytes else none

/-- Suffix appended to the image path when not replacing in place. -/
def newSuffix : String := ".new"

/-- Result of `replace_file`: the name searched, the output serialization
(path and bytes) if one was opened, and the C return value. -/
structure ReplaceOut where
  searched : String
  wrote : Option (String × List Nat)
  res : Int
deriving DecidableEq, Repr

/-- `replace_file`: resolve the search name, locate it in the image, read the
replacement content from the host file (`hostContent`, `none` for an
open/read failure), delegate the overwrite to the codec (`codecReplace`,
`none` for its `-1`), then serialize the mutated buffer to `path` (in place)
or `path ++ ".new"`.  `dataSize` is the image buffer size passed by the
caller and `fwriteRes` the byte count `fwrite` reports; a count other than
`dataSize` is the fatal short-write return. -/
def replace_file (path filename : String) (targetName : Option String) (img : Image)
    (fuel superblock : Nat) (hostContent : Option (List Nat))
    (codecReplace : Nat → List Nat → Option (List Nat))
    (dataSize fwriteRes : Nat) (inPlace : Bool) : Option ReplaceOut :=
  match find_filename img fuel superblock (replaceSearchName filename targetName) with
  | none => none
  | some (.error _) => some ⟨replaceSearchName filename targetName, none, -1⟩
  | some (.ok inode) =>
    match hostContent with
    | none => some ⟨replaceSearchName filename targetName, none, -1⟩
    | some content =>
      match codecReplace inode content with
      | none => some ⟨replaceSearchName filename targetName, none, -1⟩
      | some newData =>
        some ⟨replaceSearchName filename targetName,
          some ((if inPlace then path else path ++ newSuffix), newData.take fwriteRes),
          if fwriteRes = dataSize then 0 else -1⟩

/-- One row the Lister prints (`print_file_info`'s single `printf`): the
right-justified display name and the formatted metadata columns. -/
structure ListRow where
  name : String
  ftype : String
  size : Nat
  version : String
  created : String
  modified : String
  expired : String
deriving DecidableEq, Repr

def dotStr : String := "."

/-- `snprintf("%*s", w, s)`: `s` right-justified in width `w` by padding
spaces on the left. -/
def rightJustify (w : Nat) (s : String) : String :=
  String.mk (List.replicate (w - s.length) ' ') ++ s

/-- `snprintf("%0*d", w, n)`-style zero padding used by the date columns. -/
def padNum (w n : Nat) : String :=
  String.mk (List.replicate (w - (toString n).length) '0') ++ toString n

/-- `format_version`: "major.minor.patch" with `%u` fields.  The components
are 8-bit in the source (`version_t`), so the 12-byte buffer never
truncates. -/
def formatVersion (v : Nat × Nat × Nat) : String :=
  toString v.1 ++ dotStr ++ toString v.2.1 ++ dotStr ++ toString v.2.2

/-- `"%04d/%02d/%02d"` date formatting of `print_file_info`. -/
def formatDate (d : Nat × Nat × Nat) : String :=
  padNum 4 d.1 ++ dirSep ++ padNum 2 d.2.1 ++ dirSep ++ padNum 2 d.2.2

/-- The row `print_file_info` emits for a block visited at depth `lv`: the
display name is the parsed basename right-justified in width
`strlen(basename) + 2 * level`. -/
def rowOf (img : Image) (b lv : Nat) : ListRow :=
  match img.parseName b with
  | none => ⟨emptyStr, emptyStr, 0, emptyStr, emptyStr, emptyStr, emptyStr⟩
  | some nm =>
    ⟨rightJustify (nm.fst.length + 2 * lv) nm.fst, nm.snd, img.fileSize b,
      formatVersion (img.fileVersion b), formatDate (img.creationDate b),
      formatDate (img.modDate b), formatDate (img.expDate b)⟩

/-- `print_file_info` (the Lister's visitor, used for files and directories
alike): parse the name (failure → `RESULT_ERROR`), then emit one row.  The
state accumulates the rows printed so far. -/
def print_file_info (img : Image) : Visitor (List ListRow) := fun block _dn lv rows =>
  match img.parseName block with
  | none => (.error, rows)
  | some _ => (.ok, rows ++ [rowOf img block lv])

/-- `print_image_info` (minus the banner printing): walk the image from the
superblock at depth 0 with `print_file_info` as both visitors, returning the
C result and the rows printed. -/
def print_image_info (img : Image) (fuel superblock : Nat) : Option (Int × List ListRow) :=
  match traverse_ccos_image img (some (print_file_info img)) (some (print_file_info img))
      fuel superblock emptyStr 0 [] with
  | none => none
  | some (.err, rows, _) => some (-1, rows)
  | some (.ok, rows, _) => some (0, rows)

/-- Well-formedness shape used by the pre-order claim: every directory event
in an enumeration is immediately followed by the complete enumeration of its
subtree, so the directory's callback strictly precedes every descendant's
callback. -/
def DirSplit (img : Image) (l : List Event) : Prop :=
  ∀ t1 c dnc lvc t2, l = t1 ++ Event.mk true c dnc lvc :: t2 →
    ∃ nm f2 sub t3, img.parseName c = some nm ∧
      preorderEvents img f2 c (dnc ++ dirSep ++ nm.fst) (lvc + 1) = some sub ∧
      t2 = sub ++ t3

/-- The blocks of the file entries of an enumeration (the entries the
Locator's on-file visitor is offered). -/
def fileEventBlocks (l : List Event) : List Nat :=
  (l.filter fun e => !e.isDir).map Event.blk

/-- Whether a block's decoded, separator-substituted name equals the target,
exactly as `find_file_on_file` compares them. -/
def matchesName (img : Image) (target : String) (b : Nat) : Bool :=
  match img.shortName b with
  | none => false
  | some nm => if target = replaceChar nm '/' '_' then true else false

/-- An image whose every codec call fails / is trivial; the concrete test
images below override the relevant blocks. -/
def baseImage : Image where
  dirContents := fun _ => none
  isDir := fun _ => false
  parseName := fun _ => none
  shortName := fun _ => none
  fileSize := fun _ => 0
  fileBlocks := fun _ => none
  blockData := fun _ => none
  fileVersion := fun _ => (0, 0, 0)
  creationDate := fun _ => (0, 0, 0)
  modDate := fun _ => (0, 0, 0)
  expDate := fun _ => (0, 0, 0)

def nmA : String := "A"
def nmB : String := "B"
def nmD : String := "d"
def nmF3 : String := "F3"
def nmF4 : String := "F4"
def subdirD : String := "/d"
def pathStr : String := "image.img"
def fnameStr : String := "host/F4"

/-- Concrete two-level image: root 1 contains directory 2 (named "d",
containing file 4) and file 3; file 4 has a one-block chain of capacity 3 and
logical size 2; blocks 9 and 10 are files with two-block chains used by the
extraction properties. -/
def cImgA : Image :=
  { baseImage with
    dirContents := fun b => if b = 1 then some [2, 3] else if b = 2 then some [4] else none
    isDir := fun b => b == 1 || b == 2
    parseName := fun b =>
      if b = 2 then some (nmD, emptyStr)
      else if b = 3 then some (nmF3, emptyStr)
      else if b = 4 then some (nmF4, emptyStr)
      else none
    shortName := fun b =>
      if b = 3 then some nmF3
      else if b = 4 then some nmF4
      else if b = 9 then some nmA
      else if b = 10 then some nmB
      else none
    fileSize := fun b => if b = 4 then 2 else if b = 9 then 4 else if b = 10 then 2 else 0
    fileBlocks := fun b =>
      if b = 4 then some [11]
      else if b = 9 then some [11, 12]
      else if b = 10 then some [21, 22]
      else none
    blockData := fun b =>
      if b = 11 then some [1, 2, 3]
      else if b = 12 then some [4, 5, 6]
      else if b = 21 then some [7, 7]
      else if b = 22 then some [9]
      else none }

/-- Concrete image where directory 2 (a child of root 1) has an undecodable
child list. -/
def cImgB : Image :=
  { baseImage with
    dirContents := fun b => if b = 1 then some [2, 3] else none
    isDir := fun b => b == 1 || b == 2
    parseName := fun b => if b = 2 then some (nmD, emptyStr) else none }

/-- A visitor that always answers stop-early, counting its invocations. -/
def brkVisitor : Visitor Nat := fun _ _ _ s => (.brk, s + 1)

/-- A visitor that always answers continue, counting its invocations. -/
def okCountVisitor : Visitor Nat := fun _ _ _ s => (.ok, s + 1)

/-- A visitor that always answers continue and keeps its state. -/
def okVisitor : Visitor Nat := fun _ _ _ s => (.ok, s)

/-- A unit-state visitor that always answers continue. -/
def okUnitVisitor : Visitor Unit := fun _ _ _ s => (.ok, s)

/-- The block-copy loop, solved in closed form: starting from `current = cur ≤ S`
it writes the concatenated payloads truncated at the remaining budget `S - cur`
and reads every block of the chain. -/
theorem dumpFileBlocks_spec (img : Image) (S : Nat) :
    ∀ (bs : List Nat) (cur : Nat), cur ≤ S →
      (∀ b ∈ bs, (img.blockData b).isSome) →
      dumpFileBlocks img S bs cur =
        some (((bs.map fun b => (img.blockData b).getD []).flatten).take (S - cur), bs) := by
  intro bs
  induction bs with
  | nil => intro cur h1 h2; simp [dumpFileBlocks]
  | cons b rest ih =>
    intro cur hcur hdec
    obtain ⟨p, hp⟩ := Option.isSome_iff_exists.mp (hdec b (by simp))
    have hrest : ∀ x ∈ rest, (img.blockData x).isSome := fun x hx => hdec x (by simp [hx])
    simp only [dumpFileBlocks, hp, List.map_cons, List.flatten_cons, Option.getD_some]
    by_cases hlt : S - cur < p.length
    · simp only [if_pos hlt]
      rw [ih (cur + (S - cur)) (by omega) hrest]
      rw [List.take_append_eq_append_take]
      have h0 : S - (cur + (S - cur)) = 0 := by omega
      have h1 : S - cur - p.length = 0 := by omega
      rw [h0, h1]
    · simp only [if_neg hlt]
      rw [ih (cur + p.length) (by omega) hrest]
      rw [List.take_append_eq_append_take]
      have h0 : S - (cur + p.length) = S - cur - p.length := by omega
      rw [h0]
      have h1 : p.take (S - cur) = p := List.take_of_length_le (by omega)
      rw [List.take_length, h1]

/-- The concatenated chain payloads have total length `chainCap`. -/
theorem chainCap_eq_flatten_length (img : Image) (bs : List Nat) :
    ((bs.map fun b => (img.blockData b).getD []).flatten).length = chainCap img bs := by
  simp only [chainCap, List.length_flatten, List.map_map]
  rfl

/-- Claim C1: for a file whose chain decodes and has total capacity at least
the logical size `S`, extraction writes exactly `S` bytes, equal to the
concatenation of the chain's payloads truncated at `S`; and from any cumulative
count `cur ≤ S` the loop never lets the total exceed `S`, even when the last
block's capacity exceeds the remaining bytes. -/
theorem dump_file_writes_exact_logical_size (img : Image) (block : Nat) (dn : String)
    (nm : String) (bs : List Nat)
    (h1 : img.shortName block = some nm)
    (h2 : img.fileBlocks block = some bs)
    (h3 : ∀ b ∈ bs, (img.blockData b).isSome)
    (h4 : img.fileSize block ≤ chainCap img bs) :
    (∀ cur w r, cur ≤ img.fileSize block →
        dumpFileBlocks img (img.fileSize block) bs cur = some (w, r) →
        cur + w.length ≤ img.fileSize block) ∧
    ∃ out, dump_dir_tree_on_file img block dn = some out ∧
      out.written =
        ((bs.map fun b => (img.blockData b).getD []).flatten).take (img.fileSize block) ∧
      out.written.length = img.fileSize block := by
  constructor
  · intro cur w r hcur hd
    rw [dumpFileBlocks_spec img _ bs cur hcur h3] at hd
    simp only [Option.some.injEq, Prod.mk.injEq] at hd
    have hlen : w.length = min (img.fileSize block - cur)
        ((bs.map fun b => (img.blockData b).getD []).flatten).length := by
      rw [← hd.1, List.length_take]
    omega
  · simp only [dump_dir_tree_on_file, h1, h2]
    rw [dumpFileBlocks_spec img _ bs 0 (by omega) h3]
    simp only [Nat.sub_zero]
    refine ⟨_, rfl, rfl, ?_⟩
    rw [List.length_take, chainCap_eq_flatten_length]
    omega

/-- Witness for C1 at a concrete file: block 9 of `cImgA`, logical size 4
over chain `[11, 12]` of capacity 6. -/
theorem dump_file_writes_exact_logical_size_witness :
    cImgA.fileSize 9 ≤ chainCap cImgA [11, 12] ∧
    ((∀ cur w r, cur ≤ cImgA.fileSize 9 →
        dumpFileBlocks cImgA (cImgA.fileSize 9) [11, 12] cur = some (w, r) →
        cur + w.length ≤ cImgA.fileSize 9) ∧
      ∃ out, dump_dir_tree_on_file cImgA 9 emptyStr = some out ∧
        out.written =
          (([11, 12].map fun b => (cImgA.blockData b).getD []).flatten).take (cImgA.fileSize 9) ∧
        out.written.length = cImgA.fileSize 9) :=
  ⟨by decide,
    dump_file_writes_exact_logical_size cImgA 9 emptyStr nmA [11, 12]
      (by decide) (by decide) (by decide) (by decide)⟩

/-- Claim C8 (counterexample): in `cImgA`, extracting a logical size of 2
from the chain `[21, 22]` already completes within block 21 (capacity 2), yet
the loop still fetches block 22 — it appears in the read list — and when the
trailing block is block 23, whose data the codec cannot produce, the whole
extraction fails even though all 2 bytes were already written.  So reaching
the logical size does not stop the loop from reading further chain blocks. -/
theorem slack_blocks_still_read_cex :
    dumpFileBlocks cImgA 2 [21, 22] 0 = some ([7, 7], [21, 22]) ∧
    dumpFileBlocks cImgA 2 [21, 23] 0 = none := by
  decide

/-- Claim C8 (amended): once the cumulative bytes written reach the file's
logical size, the remaining chain blocks contribute no bytes to the host file
(trailing slack is never written), but the loop still reads every remaining
allocated block — extraction fetches the whole chain. -/
theorem slack_blocks_read_not_written (img : Image) (block : Nat) (dn nm : String)
    (bs1 bs2 : List Nat)
    (h1 : img.shortName block = some nm)
    (h2 : img.fileBlocks block = some (bs1 ++ bs2))
    (h3 : ∀ b ∈ bs1 ++ bs2, (img.blockData b).isSome)
    (h4 : img.fileSize block ≤ chainCap img bs1) :
    ∃ out, dump_dir_tree_on_file img block dn = some out ∧
      out.readBlocks = bs1 ++ bs2 ∧
      out.written =
        ((bs1.map fun b => (img.blockData b).getD []).flatten).take (img.fileSize block) := by
  simp only [dump_dir_tree_on_file, h1, h2]
  rw [dumpFileBlocks_spec img _ _ 0 (by omega) h3]
  refine ⟨_, rfl, rfl, ?_⟩
  simp only [Nat.sub_zero, List.map_append, List.flatten_append]
  rw [List.take_append_of_le_length]
  rw [chainCap_eq_flatten_length]
  exact h4

/-- Witness for the amended C8: file 10 of `cImgA`, logical size 2, chain
`[21] ++ [22]` where block 21 alone covers the size. -/
theorem slack_blocks_read_not_written_witness :
    cImgA.fileSize 10 ≤ chainCap cImgA [21] ∧
    ∃ out, dump_dir_tree_on_file cImgA 10 emptyStr = some out ∧
      out.readBlocks = [21] ++ [22] ∧
      out.written =
        (([21].map fun b => (cImgA.blockData b).getD []).flatten).take (cImgA.fileSize 10) :=
  ⟨by decide,
    slack_blocks_read_not_written cImgA 10 emptyStr nmB [21] [22]
      (by decide) (by decide) (by decide) (by decide)⟩

/-- `takeWhile` passes over a wholly satisfying prefix. -/
theorem takeWhile_append_all {α} (p : α → Bool) (b : List α) :
    ∀ a : List α, (∀ x ∈ a, p x = true) → (a ++ b).takeWhile p = a ++ b.takeWhile p := by
  intro a
  induction a with
  | nil => intro _; simp
  | cons y ys ih =>
    intro h
    have hy : p y = true := h y (by simp)
    simp only [List.cons_append, List.takeWhile_cons_of_pos hy, List.cons.injEq, true_and]
    exact ih fun x hx => h x (by simp [hx])

/-- `takeWhile` stops inside a prefix that contains a failing element. -/
theorem takeWhile_append_stop {α} (p : α → Bool) (b : List α) :
    ∀ a : List α, (∃ x ∈ a, p x = false) → (a ++ b).takeWhile p = a.takeWhile p := by
  intro a
  induction a with
  | nil => rintro ⟨x, hx, _⟩; cases hx
  | cons y ys ih =>
    rintro ⟨x, hx, hpx⟩
    cases hy : p y with
    | true =>
      have hys : ∃ x ∈ ys, p x = false := by
        rcases List.mem_cons.mp hx with h | h
        · subst h; rw [hpx] at hy; cases hy
        · exact ⟨x, h, hpx⟩
      simp only [List.cons_append, List.takeWhile_cons_of_pos hy, List.cons.injEq, true_and]
      exact ih hys
    | false =>
      have hy' : ¬p y = true := by simp [hy]
      rw [List.cons_append, List.takeWhile_cons_of_neg hy', List.takeWhile_cons_of_neg hy']

/-- `strrchrSuffix` returns `none` exactly when the character is absent. -/
theorem strrchrSuffix_none (c : Char) :
    ∀ xs : List Char, strrchrSuffix c xs = none ↔ c ∉ xs := by
  intro xs
  induction xs with
  | nil => simp [strrchrSuffix]
  | cons x xs ih =>
    simp only [strrchrSuffix]
    cases h : strrchrSuffix c xs with
    | some r =>
      have hc : c ∈ xs := by
        by_contra hc
        rw [← ih] at hc
        rw [h] at hc
        cases hc
      simp [hc]
    | none =>
      have hnc : c ∉ xs := ih.mp h
      by_cases hx : x = c
      · subst hx; simp
      · simp only [if_neg hx]
        constructor
        · intro _ hmem
          rcases List.mem_cons.mp hmem with h1 | h1
          · exact hx h1.symm
          · exact hnc h1
        · intro _; trivial

/-- The `strrchr`-computed basename is the longest suffix free of the
character: `strrchrSuffix` (defaulting to the whole list when the character
is absent) agrees with reversed `takeWhile`. -/
theorem strrchrSuffix_basename (c : Char) :
    ∀ xs : List Char,
      (strrchrSuffix c xs).getD xs = ((xs.reverse.takeWhile fun x => x ≠ c).reverse) := by
  intro xs
  induction xs with
  | nil => simp [strrchrSuffix]
  | cons x xs ih =>
    simp only [strrchrSuffix, List.reverse_cons]
    cases h : strrchrSuffix c xs with
    | some r =>
      have hc : c ∈ xs := by
        by_contra hc
        rw [← strrchrSuffix_none c xs] at hc
        rw [h] at hc
        cases hc
      rw [takeWhile_append_stop _ _ _ ⟨c, by simp [hc], by simp⟩]
      rw [h] at ih
      simpa using ih
    | none =>
      have hnc : c ∉ xs := (strrchrSuffix_none c xs).mp h
      have hall : ∀ y ∈ xs.reverse, (fun x => decide (x ≠ c)) y = true := by
        intro y hy
        simp only [decide_eq_true_eq]
        intro he
        subst he
        exact hnc (by simpa using hy)
      by_cases hx : x = c
      · subst hx
        rw [if_pos rfl]
        rw [takeWhile_append_all _ _ _ hall]
        simp
      · rw [if_neg hx]
        rw [takeWhile_append_all _ _ _ hall]
        simp [hx]

/-- Every `some` result of `replace_file` records the searched name, which is
`replaceSearchName` of the host path and optional explicit target. -/
theorem replace_file_searched (path filename : String) (tn : Option String) (img : Image)
    (fuel sb : Nat) (hc : Option (List Nat)) (cr : Nat → List Nat → Option (List Nat))
    (ds fw : Nat) (ip : Bool) (r : ReplaceOut)
    (h : replace_file path filename tn img fuel sb hc cr ds fw ip = some r) :
    r.searched = replaceSearchName filename tn := by
  unfold replace_file at h
  split at h
  · simp at h
  · simp only [Option.some.injEq] at h
    rw [← h]
  · split at h
    · simp only [Option.some.injEq] at h
      rw [← h]
    · split at h
      · simp only [Option.some.injEq] at h
        rw [← h]
      · simp only [Option.some.injEq] at h
        rw [← h]

/-- Claim C10: with no explicit target name, `replace_file` searches the image
for the basename of the host replacement path — the substring after the last
`/`, or the whole path when it has no `/` — and with an explicit target name
it searches for exactly that string. -/
theorem replace_file_searched_name (s n : String) :
    replaceSearchName s (some n) = n ∧
    replaceSearchName s none = specBasename s ∧
    (∀ (img : Image) (fuel sb : Nat) (hc : Option (List Nat))
        (cr : Nat → List Nat → Option (List Nat)) (ds fw : Nat) (ip : Bool)
        (path : String) (r : ReplaceOut),
      replace_file path s none img fuel sb hc cr ds fw ip = some r →
        r.searched = specBasename s) ∧
    (∀ (img : Image) (fuel sb : Nat) (hc : Option (List Nat))
        (cr : Nat → List Nat → Option (List Nat)) (ds fw : Nat) (ip : Bool)
        (path : String) (r : ReplaceOut),
      replace_file path s (some n) img fuel sb hc cr ds fw ip = some r →
        r.searched = n) := by
  have hbase : replaceSearchName s none = specBasename s := by
    have hmk : String.mk s.data = s := rfl
    unfold replaceSearchName specBasename
    cases h : strrchrSuffix '/' s.data with
    | none =>
      have := strrchrSuffix_basename '/' s.data
      rw [h] at this
      simp only [Option.getD_none] at this
      rw [← this, hmk]
    | some suffix =>
      have := strrchrSuffix_basename '/' s.data
      rw [h] at this
      simp only [Option.getD_some] at this
      rw [← this]
  refine ⟨rfl, hbase, ?_, ?_⟩
  · intro img fuel sb hc cr ds fw ip path r h
    rw [replace_file_searched path s none img fuel sb hc cr ds fw ip r h]
    exact hbase
  · intro img fuel sb hc cr ds fw ip path r h
    exact replace_file_searched path s (some n) img fuel sb hc cr ds fw ip r h

/-- Witness for C10 at the concrete host path `"host/F4"`: the searched
basename is `"F4"`, both as computed against the spec-side definition and on
an actual `replace_file` run against `cImgA`. -/
theorem replace_file_searched_name_witness :
    replaceSearchName fnameStr (some nmF4) = nmF4 ∧
    replaceSearchName fnameStr none = specBasename fnameStr ∧
    (ReplaceOut.mk nmF4 none (-1)).searched = specBasename fnameStr :=
  ⟨(replace_file_searched_name fnameStr nmF4).1,
    (replace_file_searched_name fnameStr nmF4).2.1,
    (replace_file_searched_name fnameStr nmF4).2.2.1 cImgA 3 1 none (fun _ _ => none) 0 0 true
      pathStr ⟨nmF4, none, -1⟩ (by decide)⟩

/-- Claim C5: when the replacement content exceeds the target file's existing
block-chain capacity, the codec's replace step fails (`CapacityExceeded`) and
`replace_file` returns the error without opening or writing any output image
file. -/
theorem replace_file_capacity_exceeded_no_output (path filename : String)
    (tn : Option String) (img : Image) (fuel sb inode : Nat)
    (content bytes : List Nat) (bs : List Nat) (ds fw : Nat) (ip : Bool)
    (hfind : find_filename img fuel sb (replaceSearchName filename tn) = some (Except.ok inode))
    (hbs : img.fileBlocks inode = some bs)
    (hcap : chainCap img bs < content.length) :
    replace_file path filename tn img fuel sb (some content) (specReplaceContent img bytes)
        ds fw ip = some ⟨replaceSearchName filename tn, none, -1⟩ := by
  have hif : ¬(content.length ≤ chainCap img bs) := by omega
  unfold replace_file specReplaceContent
  simp only [hfind, hbs, if_neg hif]

/-- Witness for C5: replacing file 4 of `cImgA` (chain capacity 3) with 4
bytes of content fails with no output serialization. -/
theorem replace_file_capacity_exceeded_no_output_witness :
    chainCap cImgA [11] < 4 ∧
    replace_file pathStr fnameStr (some nmF4) cImgA 3 1 (some [5, 5, 5, 5])
        (specReplaceContent cImgA [0, 0]) 2 2 false =
      some ⟨replaceSearchName fnameStr (some nmF4), none, -1⟩ :=
  ⟨by decide,
    replace_file_capacity_exceeded_no_output pathStr fnameStr (some nmF4) cImgA 3 1 4
      [5, 5, 5, 5] [0, 0] [11] 2 2 false (by rfl) (by decide) (by decide)⟩

/-- Claim C6: on a successful codec replacement, `replace_file` serializes the
whole mutated image buffer to the original path when in-place, else to the
sibling path with the fixed `".new"` suffix; the operation succeeds exactly
when the reported byte count equals the full image size (a short write is the
fatal `-1` return), and on success the bytes serialized are the entire mutated
buffer. -/
theorem replace_file_success_serializes_buffer (path filename : String)
    (tn : Option String) (img : Image) (fuel sb inode : Nat)
    (content newData : List Nat) (codecReplace : Nat → List Nat → Option (List Nat))
    (ds fw : Nat) (ip : Bool)
    (hfind : find_filename img fuel sb (replaceSearchName filename tn) = some (Except.ok inode))
    (hrep : codecReplace inode content = some newData)
    (hlen : newData.length = ds) :
    ∃ r, replace_file path filename tn img fuel sb (some content) codecReplace ds fw ip =
        some r ∧
      r.searched = replaceSearchName filename tn ∧
      r.wrote = some ((if ip then path else path ++ newSuffix), newData.take fw) ∧
      (r.res = 0 ↔ fw = ds) ∧
      (fw = ds → newData.take fw = newData) := by
  unfold replace_file
  simp only [hfind, hrep]
  refine ⟨_, rfl, rfl, rfl, ?_, ?_⟩
  · by_cases h : fw = ds <;> simp [h]
  · intro h
    subst h
    rw [← hlen]
    exact List.take_length newData

/-- Witness for C6: replacing file 4 of `cImgA` with a codec producing the
2-byte mutated buffer `[9, 9]`, image size 2, `fwrite` reporting 2, not in
place. -/
theorem replace_file_success_serializes_buffer_witness :
    ∃ r, replace_file pathStr fnameStr (some nmF4) cImgA 3 1 (some [5])
        (fun _ _ => some [9, 9]) 2 2 false = some r ∧
      r.searched = replaceSearchName fnameStr (some nmF4) ∧
      r.wrote = some ((if false then pathStr else pathStr ++ newSuffix), [9, 9].take 2) ∧
      (r.res = 0 ↔ 2 = 2) ∧
      (2 = 2 → [9, 9].take 2 = [9, 9]) :=
  replace_file_success_serializes_buffer pathStr fnameStr (some nmF4) cImgA 3 1 4 [5] [9, 9]
    (fun _ _ => some [9, 9]) 2 2 false (by rfl) rfl rfl

/-- Claim C7: a start block whose child list the codec cannot decode makes the
walk fail immediately with no callback invoked; and at any enclosing level, a
failing recursion into a directory child turns into failure of the whole
level — the remaining entries after that child are never visited, whatever
they are. -/
theorem dir_decode_failure_aborts_walk {σ : Type} :
    (∀ (img : Image) (f g : Option (Visitor σ)) (fuel block : Nat) (dn : String) (lv : Nat)
        (s : σ),
      img.dirContents block = none →
      traverse_ccos_image img f g (fuel + 1) block dn lv s = some (.err, s, [])) ∧
    (∀ (img : Image) (f : Option (Visitor σ)) (gf : Visitor σ)
        (tr : Nat → String → Nat → σ → Option (TravResult × σ × List Event))
        (c : Nat) (rest : List Nat) (dn : String) (lv : Nat) (s s1 s2 : σ)
        (nm : String × String) (t : List Event),
      img.isDir c = true → img.parseName c = some nm →
      gf c dn lv s = (.ok, s1) →
      tr c (dn ++ dirSep ++ nm.fst) (lv + 1) s1 = some (.err, s2, t) →
      traverseChildren img f (some gf) tr (c :: rest) dn lv s =
        some (.err, s2, Event.mk true c dn lv :: t)) := by
  constructor
  · intro img f g fuel block dn lv s h
    simp only [traverse_ccos_image, h]
  · intro img f gf tr c rest dn lv s s1 s2 nm t hdir hpn hok htr
    simp only [traverseChildren, hdir, hpn, hok, htr, if_true, List.singleton_append]

/-- Witness for C7: in `cImgB` the child list of block 7 is undecodable, and
the child list of directory 2 (a child of root 1) is undecodable, so the walk
of `[2, 3]` fails right after directory 2's callback without visiting entry
3. -/
theorem dir_decode_failure_aborts_walk_witness :
    (cImgB.dirContents 7 = none ∧
      traverse_ccos_image cImgB none none 1 7 emptyStr 0 (0 : Nat) =
        some (.err, 0, [])) ∧
    (traverse_ccos_image cImgB none (some okVisitor) 1 2 (emptyStr ++ dirSep ++ nmD) 1 0 =
        some (.err, 0, []) ∧
      traverseChildren cImgB none (some okVisitor)
          (fun b d v st => traverse_ccos_image cImgB none (some okVisitor) 1 b d v st)
          [2, 3] emptyStr 0 0 =
        some (.err, 0, [Event.mk true 2 emptyStr 0])) :=
  ⟨⟨rfl, (@dir_decode_failure_aborts_walk Nat).1 cImgB none none 0 7 emptyStr 0 0 rfl⟩,
    ⟨rfl, (@dir_decode_failure_aborts_walk Nat).2 cImgB none okVisitor
      (fun b d v st => traverse_ccos_image cImgB none (some okVisitor) 1 b d v st)
      2 [3] emptyStr 0 0 0 0 (nmD, emptyStr) [] rfl rfl rfl rfl⟩⟩

/-- Claim C3 (counterexample): in `cImgA`, with an on-file visitor that
always answers stop-early, the callback at file 4 (inside directory 2, depth
1) returns `RESULT_BREAK`, yet the walk still invokes a further callback on
file 3 — a sibling of its ancestor directory at the root level — because the
inner recursion's `0` return is indistinguishable from an ordinary completed
subtree.  Stop-early therefore does not terminate the entire walk. -/
theorem stop_early_not_global_cex :
    brkVisitor 4 subdirD 1 0 = (.brk, 1) ∧
    traverse_ccos_image cImgA (some brkVisitor) (some okVisitor) 3 1 emptyStr 0 0 =
      some (.ok, 2, [Event.mk true 2 emptyStr 0, Event.mk false 4 subdirD 1,
        Event.mk false 3 emptyStr 0]) := by
  constructor
  · rfl
  · decide

/-- Claim C3 (amended): a stop-early verdict — whether returned by the
on-file or the on-directory visitor — terminates only the current directory
level's scan: the remaining entries of that level are skipped (for an
on-directory stop-early the directory's subtree is not entered either) and the
level reports success; the enclosing level, with or without an on-directory
visitor of its own, receives that success as an ordinary completed subtree and
continues with its own remaining entries. -/
theorem stop_early_terminates_current_level {σ : Type} :
    (∀ (img : Image) (ff : Visitor σ) (g : Option (Visitor σ))
        (tr : Nat → String → Nat → σ → Option (TravResult × σ × List Event))
        (c : Nat) (rest : List Nat) (dn : String) (lv : Nat) (s s1 : σ),
      img.isDir c = false → ff c dn lv s = (.brk, s1) →
      traverseChildren img (some ff) g tr (c :: rest) dn lv s =
        some (.ok, s1, [Event.mk false c dn lv])) ∧
    (∀ (img : Image) (f : Option (Visitor σ)) (gf : Visitor σ)
        (tr : Nat → String → Nat → σ → Option (TravResult × σ × List Event))
        (c : Nat) (rest : List Nat) (dn : String) (lv : Nat) (s s1 : σ)
        (nm : String × String),
      img.isDir c = true → img.parseName c = some nm →
      gf c dn lv s = (.brk, s1) →
      traverseChildren img f (some gf) tr (c :: rest) dn lv s =
        some (.ok, s1, [Event.mk true c dn lv])) ∧
    (∀ (img : Image) (f : Option (Visitor σ))
        (tr : Nat → String → Nat → σ → Option (TravResult × σ × List Event))
        (c : Nat) (rest : List Nat) (dn : String) (lv : Nat) (s s1 : σ)
        (nm : String × String) (t : List Event),
      img.isDir c = true → img.parseName c = some nm →
      tr c (dn ++ dirSep ++ nm.fst) (lv + 1) s = some (.ok, s1, t) →
      traverseChildren img f none tr (c :: rest) dn lv s =
        (match traverseChildren img f none tr rest dn lv s1 with
         | none => none
         | some (r2, s3, t2) => some (r2, s3, t ++ t2))) ∧
    (∀ (img : Image) (f : Option (Visitor σ)) (gf : Visitor σ)
        (tr : Nat → String → Nat → σ → Option (TravResult × σ × List Event))
        (c : Nat) (rest : List Nat) (dn : String) (lv : Nat) (s s1 s2 : σ)
        (nm : String × String) (t : List Event),
      img.isDir c = true → img.parseName c = some nm →
      gf c dn lv s = (.ok, s1) →
      tr c (dn ++ dirSep ++ nm.fst) (lv + 1) s1 = some (.ok, s2, t) →
      traverseChildren img f (some gf) tr (c :: rest) dn lv s =
        (match traverseChildren img f (some gf) tr rest dn lv s2 with
         | none => none
         | some (r2, s3, t2) => some (r2, s3, [Event.mk true c dn lv] ++ t ++ t2))) := by
  refine ⟨?_, ?_, ?_, ?_⟩
  · intro img ff g tr c rest dn lv s s1 hdir hbrk
    simp only [traverseChildren, hdir, hbrk, Bool.false_eq_true, if_false]
  · intro img f gf tr c rest dn lv s s1 nm hdir hpn hbrk
    simp only [traverseChildren, hdir, hpn, hbrk, if_true]
  · intro img f tr c rest dn lv s s1 nm t hdir hpn htr
    simp only [traverseChildren, hdir, hpn, htr, if_true, List.nil_append]
  · intro img f gf tr c rest dn lv s s1 s2 nm t hdir hpn hok htr
    simp only [traverseChildren, hdir, hpn, hok, htr, if_true]

/-- Witness for the amended C3 on `cImgA`: an on-file stop-early at file 3
skips the rest of its level `[3, 4]`; an on-directory stop-early at directory
2 skips both its subtree and the rest of its level `[2, 3]`; and after the
subtree of directory 2 completes by stop-early at file 4, the walk of
`[2, 3]` continues into entry 3 — with no on-directory visitor and with one
answering continue. -/
theorem stop_early_terminates_current_level_witness :
    (cImgA.isDir 3 = false ∧
      traverseChildren cImgA (some brkVisitor) (some okVisitor) (fun _ _ _ _ => none)
          [3, 4] emptyStr 0 0 =
        some (.ok, 1, [Event.mk false 3 emptyStr 0])) ∧
    (cImgA.isDir 2 = true ∧ brkVisitor 2 emptyStr 0 0 = (.brk, 1) ∧
      traverseChildren cImgA (some okVisitor) (some brkVisitor) (fun _ _ _ _ => none)
          [2, 3] emptyStr 0 0 =
        some (.ok, 1, [Event.mk true 2 emptyStr 0])) ∧
    (traverse_ccos_image cImgA (some brkVisitor) none 1 2 (emptyStr ++ dirSep ++ nmD) 1 0 =
        some (.ok, 1, [Event.mk false 4 (emptyStr ++ dirSep ++ nmD) 1]) ∧
      traverseChildren cImgA (some brkVisitor) none
          (fun b d v st => traverse_ccos_image cImgA (some brkVisitor) none 1 b d v st)
          [2, 3] emptyStr 0 0 =
        (match traverseChildren cImgA (some brkVisitor) none
            (fun b d v st => traverse_ccos_image cImgA (some brkVisitor) none 1 b d v st)
            [3] emptyStr 0 1 with
         | none => none
         | some (r2, s3, t2) =>
           some (r2, s3, [Event.mk false 4 (emptyStr ++ dirSep ++ nmD) 1] ++ t2))) ∧
    (okCountVisitor 2 emptyStr 0 0 = (.ok, 1) ∧
      traverseChildren cImgA (some brkVisitor) (some okCountVisitor)
          (fun b d v st =>
            traverse_ccos_image cImgA (some brkVisitor) (some okCountVisitor) 1 b d v st)
          [2, 3] emptyStr 0 0 =
        (match traverseChildren cImgA (some brkVisitor) (some okCountVisitor)
            (fun b d v st =>
              traverse_ccos_image cImgA (some brkVisitor) (some okCountVisitor) 1 b d v st)
            [3] emptyStr 0 2 with
         | none => none
         | some (r2, s3, t2) =>
           some (r2, s3, [Event.mk true 2 emptyStr 0] ++
             [Event.mk false 4 (emptyStr ++ dirSep ++ nmD) 1] ++ t2))) :=
  ⟨⟨rfl, (@stop_early_terminates_current_level Nat).1 cImgA brkVisitor (some okVisitor)
      (fun _ _ _ _ => none) 3 [4] emptyStr 0 0 1 rfl rfl⟩,
    ⟨rfl, rfl, (@stop_early_terminates_current_level Nat).2.1 cImgA (some okVisitor) brkVisitor
      (fun _ _ _ _ => none) 2 [3] emptyStr 0 0 1 (nmD, emptyStr) rfl rfl rfl⟩,
    ⟨rfl, (@stop_early_terminates_current_level Nat).2.2.1 cImgA (some brkVisitor)
      (fun b d v st => traverse_ccos_image cImgA (some brkVisitor) none 1 b d v st)
      2 [3] emptyStr 0 0 1 (nmD, emptyStr)
      [Event.mk false 4 (emptyStr ++ dirSep ++ nmD) 1] rfl rfl rfl⟩,
    ⟨rfl, (@stop_early_terminates_current_level Nat).2.2.2 cImgA (some brkVisitor)
      okCountVisitor
      (fun b d v st =>
        traverse_ccos_image cImgA (some brkVisitor) (some okCountVisitor) 1 b d v st)
      2 [3] emptyStr 0 0 1 2 (nmD, emptyStr)
      [Event.mk false 4 (emptyStr ++ dirSep ++ nmD) 1] rfl rfl rfl rfl⟩⟩

/-- Folding a row-appending step over a list is mapping. -/
theorem foldl_append_singleton {α β : Type} (f : α → β) :
    ∀ (l : List α) (init : List β),
      l.foldl (fun a e => a ++ [f e]) init = init ++ l.map f := by
  intro l
  induction l with
  | nil => intro init; simp
  | cons x xs ih => intro init; simp [ih]

/-- Per-child loop refinement: when both visitors answer continue on
well-formed entries and transform the state by `step`, the loop succeeds,
invokes exactly the callbacks of the specification-side enumeration, and folds
`step` over them in order. -/
theorem traverseChildren_visits {σ : Type} (img : Image) (f g : Visitor σ)
    (wfEv : Event → Prop) (step : Event → σ → σ)
    (hf : ∀ b dn lv s, wfEv (Event.mk false b dn lv) →
      f b dn lv s = (.ok, step (Event.mk false b dn lv) s))
    (hg : ∀ b dn lv s, wfEv (Event.mk true b dn lv) →
      g b dn lv s = (.ok, step (Event.mk true b dn lv) s))
    (tr : Nat → String → Nat → σ → Option (TravResult × σ × List Event))
    (pe : Nat → String → Nat → Option (List Event))
    (hrec : ∀ b dn lv (s : σ) l, pe b dn lv = some l → (∀ e ∈ l, wfEv e) →
      tr b dn lv s = some (.ok, l.foldl (fun a e => step e a) s, l)) :
    ∀ (children : List Nat) (dn : String) (lv : Nat) (s : σ) (l : List Event),
      preorderL img pe children dn lv = some l → (∀ e ∈ l, wfEv e) →
      traverseChildren img (some f) (some g) tr children dn lv s =
        some (.ok, l.foldl (fun a e => step e a) s, l) := by
  intro children
  induction children with
  | nil =>
    intro dn lv s l hl hwf
    simp only [preorderL, Option.some.injEq] at hl
    subst hl
    simp [traverseChildren]
  | cons c rest ih =>
    intro dn lv s l hl hwf
    by_cases hdir : img.isDir c
    · simp only [preorderL, if_pos hdir] at hl
      cases hpn : img.parseName c with
      | none => simp only [hpn] at hl; exact Option.noConfusion hl
      | some nm =>
        simp only [hpn] at hl
        cases hpe : pe c (dn ++ dirSep ++ nm.fst) (lv + 1) with
        | none => simp only [hpe] at hl; exact Option.noConfusion hl
        | some sub =>
          simp only [hpe] at hl
          cases hrest : preorderL img pe rest dn lv with
          | none => simp only [hrest] at hl; exact Option.noConfusion hl
          | some r =>
            simp only [hrest, Option.some.injEq] at hl
            subst hl
            have hwfd : wfEv (Event.mk true c dn lv) := hwf _ (by simp)
            have hwfsub : ∀ e ∈ sub, wfEv e := fun e he => hwf e (by simp [he])
            have hwfr : ∀ e ∈ r, wfEv e := fun e he => hwf e (by simp [he])
            have h1 := hg c dn lv s hwfd
            have h2 := hrec c (dn ++ dirSep ++ nm.fst) (lv + 1)
              (step (Event.mk true c dn lv) s) sub hpe hwfsub
            have h3 := ih dn lv
              (sub.foldl (fun a e => step e a) (step (Event.mk true c dn lv) s)) r hrest hwfr
            simp only [traverseChildren, if_pos hdir, hpn, h1, h2, h3]
            simp [List.foldl_append]
    · simp only [preorderL, if_neg hdir] at hl
      cases hrest : preorderL img pe rest dn lv with
      | none => simp only [hrest] at hl; exact Option.noConfusion hl
      | some r =>
        simp only [hrest, Option.some.injEq] at hl
        subst hl
        have hwff : wfEv (Event.mk false c dn lv) := hwf _ (by simp)
        have hwfr : ∀ e ∈ r, wfEv e := fun e he => hwf e (by simp [he])
        have h1 := hf c dn lv s hwff
        have h3 := ih dn lv (step (Event.mk false c dn lv) s) r hrest hwfr
        simp only [traverseChildren, if_neg hdir, h1, h3]
        simp

/-- Walk refinement: with continue-answering visitors, `traverse_ccos_image`
succeeds and performs exactly the specification-side pre-order callback
sequence, folding the visitors' state transformation over it. -/
theorem traverse_visits {σ : Type} (img : Image) (f g : Visitor σ)
    (wfEv : Event → Prop) (step : Event → σ → σ)
    (hf : ∀ b dn lv s, wfEv (Event.mk false b dn lv) →
      f b dn lv s = (.ok, step (Event.mk false b dn lv) s))
    (hg : ∀ b dn lv s, wfEv (Event.mk true b dn lv) →
      g b dn lv s = (.ok, step (Event.mk true b dn lv) s)) :
    ∀ (fuel block : Nat) (dn : String) (lv : Nat) (s : σ) (l : List Event),
      preorderEvents img fuel block dn lv = some l → (∀ e ∈ l, wfEv e) →
      traverse_ccos_image img (some f) (some g) fuel block dn lv s =
        some (.ok, l.foldl (fun a e => step e a) s, l) := by
  intro fuel
  induction fuel with
  | zero => intro block dn lv s l hl _; simp [preorderEvents] at hl
  | succ fuel ih =>
    intro block dn lv s l hl hwf
    cases hdc : img.dirContents block with
    | none => simp only [preorderEvents, hdc] at hl; cases hl
    | some children =>
      simp only [preorderEvents, hdc] at hl
      simp only [traverse_ccos_image, hdc]
      exact traverseChildren_visits img f g wfEv step hf hg _ _
        (fun b dn lv s l hlb hwfb => ih b dn lv s l hlb hwfb) children dn lv s l hl hwf

/-- Level part of the pre-order split property: every directory event of an
enumerated level is immediately followed by the full enumeration of its
subtree. -/
theorem preorderL_dirsplit (img : Image) (fuel : Nat)
    (ihf : ∀ (b : Nat) (dn : String) (lv : Nat) (l : List Event),
      preorderEvents img fuel b dn lv = some l → DirSplit img l) :
    ∀ (children : List Nat) (dn : String) (lv : Nat) (l : List Event),
      preorderL img (fun b d v => preorderEvents img fuel b d v) children dn lv = some l →
      DirSplit img l := by
  intro children
  induction children with
  | nil =>
    intro dn lv l hl
    simp only [preorderL, Option.some.injEq] at hl
    subst hl
    intro t1 c dnc lvc t2 ht
    exact absurd ht (by simp)
  | cons c0 rest ihr =>
    intro dn lv l hl
    by_cases hdir : img.isDir c0
    · simp only [preorderL, if_pos hdir] at hl
      cases hpn : img.parseName c0 with
      | none => simp only [hpn] at hl; exact Option.noConfusion hl
      | some nm0 =>
        simp only [hpn] at hl
        cases hpe : preorderEvents img fuel c0 (dn ++ dirSep ++ nm0.fst) (lv + 1) with
        | none => simp only [hpe] at hl; exact Option.noConfusion hl
        | some sub =>
          simp only [hpe] at hl
          cases hrest : preorderL img (fun b d v => preorderEvents img fuel b d v) rest dn lv with
          | none => simp only [hrest] at hl; exact Option.noConfusion hl
          | some r =>
            simp only [hrest, Option.some.injEq] at hl
            subst hl
            intro t1 c dnc lvc t2 ht
            cases t1 with
            | nil =>
              simp only [List.nil_append, List.cons.injEq, Event.mk.injEq] at ht
              obtain ⟨⟨_, hc, hdn, hlv⟩, ht2⟩ := ht
              subst hc; subst hdn; subst hlv
              exact ⟨nm0, fuel, sub, r, hpn, hpe, ht2.symm⟩
            | cons e t1' =>
              simp only [List.cons_append, List.cons.injEq] at ht
              obtain ⟨_, htail⟩ := ht
              rcases List.append_eq_append_iff.mp htail with
                ⟨a2, ha1, ha2⟩ | ⟨c2, hc1, hc2⟩
              · exact ihr dn lv r hrest a2 c dnc lvc t2 ha2
              · cases c2 with
                | nil =>
                  simp only [List.nil_append] at hc2
                  exact ihr dn lv r hrest [] c dnc lvc t2 (by rw [← hc2, List.nil_append])
                | cons e2 c2' =>
                  simp only [List.cons_append, List.cons.injEq] at hc2
                  obtain ⟨he2, ht2⟩ := hc2
                  subst he2
                  obtain ⟨nm, f2, sub2, t3, hnm, hsub2, hsplit⟩ :=
                    ihf c0 (dn ++ dirSep ++ nm0.fst) (lv + 1) sub hpe t1' c dnc lvc c2'
                      (by rw [hc1])
                  exact ⟨nm, f2, sub2, t3 ++ r, hnm, hsub2, by
                    rw [ht2, hsplit, List.append_assoc]⟩
    · simp only [preorderL, if_neg hdir] at hl
      cases hrest : preorderL img (fun b d v => preorderEvents img fuel b d v) rest dn lv with
      | none => simp only [hrest] at hl; exact Option.noConfusion hl
      | some r =>
        simp only [hrest, Option.some.injEq] at hl
        subst hl
        intro t1 c dnc lvc t2 ht
        cases t1 with
        | nil =>
          simp only [List.nil_append, List.cons.injEq, Event.mk.injEq] at ht
          exact absurd ht.1.1 (by simp)
        | cons e t1' =>
          simp only [List.cons_append, List.cons.injEq] at ht
          exact ihr dn lv r hrest t1' c dnc lvc t2 ht.2

/-- Every enumeration satisfies the pre-order split property. -/
theorem preorder_dirsplit (img : Image) :
    ∀ (fuel block : Nat) (dn : String) (lv : Nat) (l : List Event),
      preorderEvents img fuel block dn lv = some l → DirSplit img l := by
  intro fuel
  induction fuel with
  | zero => intro block dn lv l hl; simp [preorderEvents] at hl
  | succ fuel ih =>
    intro block dn lv l hl
    cases hdc : img.dirContents block with
    | none => simp only [preorderEvents, hdc] at hl; exact Option.noConfusion hl
    | some children =>
      simp only [preorderEvents, hdc] at hl
      exact preorderL_dirsplit img fuel (fun b dn lv l h => ih b dn lv l h)
        children dn lv l hl

/-- Claim C2: on a well-formed image (enumerable within the fuel, with no
block repeated, i.e. a tree), a walk whose visitors always answer continue
invokes a callback on exactly the specification-side pre-order event sequence:
every reachable entry is visited exactly once, and each directory's
on-directory callback occurs strictly before the callbacks of all entries of
its subtree, which immediately follow it. -/
theorem walk_visits_preorder_exactly_once {σ : Type} (img : Image) (f g : Visitor σ)
    (fuel block : Nat) (dn : String) (lv : Nat) (s : σ) (l : List Event)
    (hf : ∀ b d v st, (f b d v st).fst = CbResult.ok)
    (hg : ∀ b d v st, (g b d v st).fst = CbResult.ok)
    (hl : preorderEvents img fuel block dn lv = some l)
    (hnd : (l.map Event.blk).Nodup) :
    ∃ s2, traverse_ccos_image img (some f) (some g) fuel block dn lv s =
        some (.ok, s2, l) ∧
      (∀ e ∈ l, l.count e = 1) ∧ DirSplit img l := by
  refine ⟨_, traverse_visits img f g (fun _ => True)
      (fun e a => if e.isDir then (g e.blk e.dir e.lvl a).snd else (f e.blk e.dir e.lvl a).snd)
      (fun b d v st _ => Prod.ext_iff.mpr ⟨hf b d v st, rfl⟩)
      (fun b d v st _ => Prod.ext_iff.mpr ⟨hg b d v st, rfl⟩)
      fuel block dn lv s l hl (fun _ _ => trivial), ?_, ?_⟩
  · have hndl : l.Nodup := hnd.of_map
    exact fun e he => List.count_eq_one_of_mem hndl he
  · exact preorder_dirsplit img fuel block dn lv l hl

/-- Witness for C2 on `cImgA` from root block 1: the walk visits directory 2,
then its file 4, then file 3, each exactly once, with each directory's
callback preceding its subtree. -/
theorem walk_visits_preorder_exactly_once_witness :
    (preorderEvents cImgA 3 1 emptyStr 0 =
        some [Event.mk true 2 emptyStr 0, Event.mk false 4 subdirD 1,
          Event.mk false 3 emptyStr 0] ∧
      (([Event.mk true 2 emptyStr 0, Event.mk false 4 subdirD 1,
          Event.mk false 3 emptyStr 0].map Event.blk).Nodup)) ∧
    ∃ s2, traverse_ccos_image cImgA (some okUnitVisitor) (some okUnitVisitor) 3 1 emptyStr
        0 () = some (.ok, s2,
          [Event.mk true 2 emptyStr 0, Event.mk false 4 subdirD 1,
            Event.mk false 3 emptyStr 0]) ∧
      (∀ e ∈ [Event.mk true 2 emptyStr 0, Event.mk false 4 subdirD 1,
          Event.mk false 3 emptyStr 0],
        [Event.mk true 2 emptyStr 0, Event.mk false 4 subdirD 1,
          Event.mk false 3 emptyStr 0].count e = 1) ∧
      DirSplit cImgA [Event.mk true 2 emptyStr 0, Event.mk false 4 subdirD 1,
        Event.mk false 3 emptyStr 0] :=
  ⟨⟨by decide, by decide⟩,
    walk_visits_preorder_exactly_once cImgA okUnitVisitor okUnitVisitor 3 1 emptyStr 0 ()
      [Event.mk true 2 emptyStr 0, Event.mk false 4 subdirD 1, Event.mk false 3 emptyStr 0]
      (fun _ _ _ _ => rfl) (fun _ _ _ _ => rfl) (by decide) (by decide)⟩

/-- Claim C9: on a well-formed image (all visited names parse), the listing
emits exactly one formatted row per visited entry — files and directories
alike, in visit order — and each row's displayed name is the parsed basename
indented by exactly two spaces per depth level at which the visitor was
invoked. -/
theorem listing_one_row_per_entry_indented (img : Image) (fuel sb : Nat) (l : List Event)
    (hl : preorderEvents img fuel sb emptyStr 0 = some l)
    (hwf : ∀ e ∈ l, (img.parseName e.blk).isSome) :
    print_image_info img fuel sb = some (0, l.map fun e => rowOf img e.blk e.lvl) ∧
    ∀ e ∈ l, (rowOf img e.blk e.lvl).name =
      String.mk (List.replicate (2 * e.lvl) ' ') ++
        ((img.parseName e.blk).getD (emptyStr, emptyStr)).fst := by
  have hvis : ∀ (b : Nat) (d : String) (v : Nat) (rows : List ListRow),
      (img.parseName b).isSome →
      print_file_info img b d v rows = (.ok, rows ++ [rowOf img b v]) := by
    intro b d v rows hs
    obtain ⟨nm, hnm⟩ := Option.isSome_iff_exists.mp hs
    simp only [print_file_info, hnm]
  constructor
  · have h := traverse_visits img (print_file_info img) (print_file_info img)
      (fun e => (img.parseName e.blk).isSome)
      (fun e rows => rows ++ [rowOf img e.blk e.lvl])
      (fun b d v rows hw => hvis b d v rows hw)
      (fun b d v rows hw => hvis b d v rows hw)
      fuel sb emptyStr 0 [] l hl hwf
    unfold print_image_info
    rw [h]
    rw [foldl_append_singleton (fun e => rowOf img e.blk e.lvl) l []]
    rfl
  · intro e he
    obtain ⟨nm, hnm⟩ := Option.isSome_iff_exists.mp (hwf e he)
    simp only [rowOf, hnm, rightJustify, Option.getD_some]
    rw [show nm.fst.length + 2 * e.lvl - nm.fst.length = 2 * e.lvl by omega]

/-- Witness for C9 on `cImgA`: three entries, three rows; file 4's row (depth
1) is indented by two spaces. -/
theorem listing_one_row_per_entry_indented_witness :
    print_image_info cImgA 3 1 =
      some (0, [Event.mk true 2 emptyStr 0, Event.mk false 4 subdirD 1,
        Event.mk false 3 emptyStr 0].map fun e => rowOf cImgA e.blk e.lvl) ∧
    ∀ e ∈ [Event.mk true 2 emptyStr 0, Event.mk false 4 subdirD 1,
        Event.mk false 3 emptyStr 0],
      (rowOf cImgA e.blk e.lvl).name =
        String.mk (List.replicate (2 * e.lvl) ' ') ++
          ((cImgA.parseName e.blk).getD (emptyStr, emptyStr)).fst :=
  listing_one_row_per_entry_indented cImgA 3 1
    [Event.mk true 2 emptyStr 0, Event.mk false 4 subdirD 1, Event.mk false 3 emptyStr 0]
    (by decide) (by decide)

theorem fileEventBlocks_append (a b : List Event) :
    fileEventBlocks (a ++ b) = fileEventBlocks a ++ fileEventBlocks b := by
  simp [fileEventBlocks]

theorem fileEventBlocks_cons_dir (b : Nat) (dn : String) (lv : Nat) (l : List Event) :
    fileEventBlocks (Event.mk true b dn lv :: l) = fileEventBlocks l := by
  simp [fileEventBlocks]

theorem fileEventBlocks_cons_file (b : Nat) (dn : String) (lv : Nat) (l : List Event) :
    fileEventBlocks (Event.mk false b dn lv :: l) = b :: fileEventBlocks l := by
  simp [fileEventBlocks]

/-- Per-child loop invariant of the Locator walk (on-file visitor
`find_file_on_file`, no on-dir visitor): the walk of a level succeeds, the
target name is preserved, the recorded inode is either untouched or the block
of a matching file entry of the enumeration, and it ends nonzero as soon as a
matching file entry exists in the level's subtrees (or it was already
nonzero). -/
theorem findChildren_inv (img : Image)
    (tr : Nat → String → Nat → FindData → Option (TravResult × FindData × List Event))
    (pe : Nat → String → Nat → Option (List Event))
    (hrec : ∀ (b : Nat) (dn : String) (lv : Nat) (st : FindData) (l : List Event),
      pe b dn lv = some l →
      (∀ e ∈ l, e.isDir = false → (img.shortName e.blk).isSome ∧ e.blk ≠ 0) →
      ∃ st2 t, tr b dn lv st = some (.ok, st2, t) ∧
        st2.targetName = st.targetName ∧
        (st2.targetInode = st.targetInode ∨
          (st2.targetInode ∈ fileEventBlocks l ∧
            matchesName img st.targetName st2.targetInode = true)) ∧
        (((∃ b2 ∈ fileEventBlocks l, matchesName img st.targetName b2 = true) ∨
            st.targetInode ≠ 0) → st2.targetInode ≠ 0)) :
    ∀ (children : List Nat) (dn : String) (lv : Nat) (st : FindData) (l : List Event),
      preorderL img pe children dn lv = some l →
      (∀ e ∈ l, e.isDir = false → (img.shortName e.blk).isSome ∧ e.blk ≠ 0) →
      ∃ st2 t, traverseChildren img (some (find_file_on_file img)) none tr
          children dn lv st = some (.ok, st2, t) ∧
        st2.targetName = st.targetName ∧
        (st2.targetInode = st.targetInode ∨
          (st2.targetInode ∈ fileEventBlocks l ∧
            matchesName img st.targetName st2.targetInode = true)) ∧
        (((∃ b2 ∈ fileEventBlocks l, matchesName img st.targetName b2 = true) ∨
            st.targetInode ≠ 0) → st2.targetInode ≠ 0) := by
  intro children
  induction children with
  | nil =>
    intro dn lv st l hl hwf
    simp only [preorderL, Option.some.injEq] at hl
    subst hl
    refine ⟨st, [], by simp [traverseChildren], rfl, Or.inl rfl, ?_⟩
    rintro (⟨b2, hb2, _⟩ | h)
    · exact absurd hb2 (by simp [fileEventBlocks])
    · exact h
  | cons c0 rest ih =>
    intro dn lv st l hl hwf
    by_cases hdir : img.isDir c0
    · simp only [preorderL, if_pos hdir] at hl
      cases hpn : img.parseName c0 with
      | none => simp only [hpn] at hl; exact Option.noConfusion hl
      | some nm0 =>
        simp only [hpn] at hl
        cases hpe : pe c0 (dn ++ dirSep ++ nm0.fst) (lv + 1) with
        | none => simp only [hpe] at hl; exact Option.noConfusion hl
        | some sub =>
          simp only [hpe] at hl
          cases hrest : preorderL img pe rest dn lv with
          | none => simp only [hrest] at hl; exact Option.noConfusion hl
          | some r =>
            simp only [hrest, Option.some.injEq] at hl
            subst hl
            have hwsub : ∀ e ∈ sub, e.isDir = false →
                (img.shortName e.blk).isSome ∧ e.blk ≠ 0 :=
              fun e he => hwf e (by simp [he])
            have hwr : ∀ e ∈ r, e.isDir = false →
                (img.shortName e.blk).isSome ∧ e.blk ≠ 0 :=
              fun e he => hwf e (by simp [he])
            obtain ⟨st1, t1, htr, hn1, hB1, hC1⟩ :=
              hrec c0 (dn ++ dirSep ++ nm0.fst) (lv + 1) st sub hpe hwsub
            obtain ⟨st2, t2, htc, hn2, hB2, hC2⟩ := ih dn lv st1 r hrest hwr
            have hfe : fileEventBlocks (Event.mk true c0 dn lv :: (sub ++ r)) =
                fileEventBlocks sub ++ fileEventBlocks r := by
              rw [fileEventBlocks_cons_dir, fileEventBlocks_append]
            refine ⟨st2, t1 ++ t2, ?_, hn2.trans hn1, ?_, ?_⟩
            · simp only [traverseChildren, if_pos hdir, hpn, htr, htc, List.nil_append]
            · rw [hfe]
              rcases hB2 with h | h
              · rw [h]
                rcases hB1 with h1 | h1
                · exact Or.inl h1
                · exact Or.inr ⟨List.mem_append.mpr (Or.inl h1.1), h1.2⟩
              · refine Or.inr ⟨List.mem_append.mpr (Or.inr h.1), ?_⟩
                rw [← hn1]
                exact h.2
            · rw [hfe]
              rintro (⟨b2, hb2, hm⟩ | hnz)
              · rcases List.mem_append.mp hb2 with hb | hb
                · exact hC2 (Or.inr (hC1 (Or.inl ⟨b2, hb, hm⟩)))
                · refine hC2 (Or.inl ⟨b2, hb, ?_⟩)
                  rw [hn1]
                  exact hm
              · exact hC2 (Or.inr (hC1 (Or.inr hnz)))
    · simp only [preorderL, if_neg hdir] at hl
      cases hrest : preorderL img pe rest dn lv with
      | none => simp only [hrest] at hl; exact Option.noConfusion hl
      | some r =>
        simp only [hrest, Option.some.injEq] at hl
        subst hl
        have hhead := hwf (Event.mk false c0 dn lv) (by simp) rfl
        obtain ⟨nm, hnm⟩ := Option.isSome_iff_exists.mp hhead.1
        have hfe : fileEventBlocks (Event.mk false c0 dn lv :: r) =
            c0 :: fileEventBlocks r := fileEventBlocks_cons_file c0 dn lv r
        by_cases hmatch : st.targetName = replaceChar nm '/' '_'
        · have hvis : find_file_on_file img c0 dn lv st =
              (.brk, { st with targetInode := c0 }) := by
            simp only [find_file_on_file, hnm, if_pos hmatch]
          refine ⟨{ st with targetInode := c0 }, [Event.mk false c0 dn lv], ?_, rfl, ?_, ?_⟩
          · simp only [traverseChildren, if_neg hdir, hvis]
          · refine Or.inr ⟨?_, ?_⟩
            · rw [hfe]
              exact List.mem_cons_self c0 (fileEventBlocks r)
            · simp only [matchesName, hnm, if_pos hmatch]
          · intro _
            exact hhead.2
        · have hvis : find_file_on_file img c0 dn lv st = (.ok, st) := by
            simp only [find_file_on_file, hnm, if_neg hmatch]
          have hwr : ∀ e ∈ r, e.isDir = false →
              (img.shortName e.blk).isSome ∧ e.blk ≠ 0 :=
            fun e he => hwf e (by simp [he])
          obtain ⟨st2, t2, htc, hn2, hB2, hC2⟩ := ih dn lv st r hrest hwr
          refine ⟨st2, Event.mk false c0 dn lv :: t2, ?_, hn2, ?_, ?_⟩
          · simp only [traverseChildren, if_neg hdir, hvis, htc]
          · rw [hfe]
            rcases hB2 with h | h
            · exact Or.inl h
            · exact Or.inr ⟨List.mem_cons_of_mem c0 h.1, h.2⟩
          · rw [hfe]
            rintro (⟨b2, hb2, hm⟩ | hnz)
            · rcases List.mem_cons.mp hb2 with hb | hb
              · subst hb
                have hmf : matchesName img st.targetName b2 = false := by
                  simp only [matchesName, hnm, if_neg hmatch]
                rw [hmf] at hm
                exact Bool.noConfusion hm
              · exact hC2 (Or.inl ⟨b2, hb, hm⟩)
            · exact hC2 (Or.inr hnz)

/-- Walk-level invariant of the Locator (fuel induction over
`findChildren_inv`). -/
theorem find_inv (img : Image) :
    ∀ (fuel block : Nat) (dn : String) (lv : Nat) (st : FindData) (l : List Event),
      preorderEvents img fuel block dn lv = some l →
      (∀ e ∈ l, e.isDir = false → (img.shortName e.blk).isSome ∧ e.blk ≠ 0) →
      ∃ st2 t, traverse_ccos_image img (some (find_file_on_file img)) none
          fuel block dn lv st = some (.ok, st2, t) ∧
        st2.targetName = st.targetName ∧
        (st2.targetInode = st.targetInode ∨
          (st2.targetInode ∈ fileEventBlocks l ∧
            matchesName img st.targetName st2.targetInode = true)) ∧
        (((∃ b2 ∈ fileEventBlocks l, matchesName img st.targetName b2 = true) ∨
            st.targetInode ≠ 0) → st2.targetInode ≠ 0) := by
  intro fuel
  induction fuel with
  | zero => intro block dn lv st l hl _; simp [preorderEvents] at hl
  | succ fuel ih =>
    intro block dn lv st l hl hwf
    cases hdc : img.dirContents block with
    | none => simp only [preorderEvents, hdc] at hl; exact Option.noConfusion hl
    | some children =>
      simp only [preorderEvents, hdc] at hl
      have h := findChildren_inv img _ _
        (fun b dn lv st l hlb hwfb => ih b dn lv st l hlb hwfb) children dn lv st l hl hwf
      simpa only [traverse_ccos_image, hdc] using h

/-- Claim C4: on a well-formed image (enumerable, file names decodable, no
file at the reserved block 0), `find_filename` succeeds with a nonzero block
exactly when some file in the tree has a decoded, separator-substituted name
case-sensitively equal to the target: when a match exists it returns a
nonzero matching file block, and when no file matches it reports the
not-found error — block 0 is never produced as a valid result. -/
theorem find_filename_match_iff (img : Image) (fuel sb : Nat) (T : String)
    (l : List Event)
    (hl : preorderEvents img fuel sb emptyStr 0 = some l)
    (hwf : ∀ e ∈ l, e.isDir = false → (img.shortName e.blk).isSome ∧ e.blk ≠ 0) :
    ((∃ b ∈ fileEventBlocks l, matchesName img T b = true) →
      ∃ n, find_filename img fuel sb T = some (Except.ok n) ∧ n ≠ 0 ∧
        n ∈ fileEventBlocks l ∧ matchesName img T n = true) ∧
    ((∀ b ∈ fileEventBlocks l, matchesName img T b = false) →
      find_filename img fuel sb T = some (Except.error FindFail.notFound)) := by
  obtain ⟨st2, t, htrav, hname, hB, hC⟩ :=
    find_inv img fuel sb emptyStr 0 ⟨T, 0⟩ l hl hwf
  constructor
  · intro hex
    have hne : st2.targetInode ≠ 0 := hC (Or.inl hex)
    refine ⟨st2.targetInode, ?_, hne, ?_⟩
    · simp only [find_filename, htrav, if_neg hne]
    · rcases hB with h | h
      · exact absurd h hne
      · exact ⟨h.1, h.2⟩
  · intro hall
    have hz : st2.targetInode = 0 := by
      rcases hB with h | h
      · exact h
      · rw [hall st2.targetInode h.1] at h
        exact Bool.noConfusion h.2
    simp only [find_filename, htrav, if_pos hz]

/-- Witness for C4 on `cImgA` with target name `"F4"`: file 4 matches, so the
find returns the nonzero block 4. -/
theorem find_filename_match_iff_witness :
    ∃ n, find_filename cImgA 3 1 nmF4 = some (Except.ok n) ∧ n ≠ 0 ∧
      n ∈ fileEventBlocks [Event.mk true 2 emptyStr 0, Event.mk false 4 subdirD 1,
        Event.mk false 3 emptyStr 0] ∧
      matchesName cImgA nmF4 n = true :=
  (find_filename_match_iff cImgA 3 1 nmF4
      [Event.mk true 2 emptyStr 0, Event.mk false 4 subdirD 1, Event.mk false 3 emptyStr 0]
      (by decide) (by decide)).1 ⟨4, by decide, by decide⟩
